import Mathlib

/-!
# Directory Tree Simulator — verification of the specification against the code

A shallow embedding of `src/lib.rs` (crate `dtree`): a directory tree
(`DTree` / `DEnt`) and an operating-system stub (`OsState`) holding the tree
and a current working directory.

Modelling conventions:
* Rust `&str` is embedded as `List Char` (`Str`), so `name.contains('/')`
  becomes `List.contains` and path strings stay analysable.
* Rust `Vec<T>` and slices are embedded as Lean lists in the same order
  (index 0 at the head).  `Vec::pop` removes the *last* element, so the
  recursive traversals `DTree::subdir` / `DTree::subdir_mut`, which pop their
  (pre-reversed) vector argument, are embedded by reversing the vector once
  at entry and consuming the resulting list from the head
  (`subdirGo` / `subdirMutGo`).
* `&mut self` methods are embedded by explicit state passing: they return the
  new value together with the `Result`.
* A Rust panic (a `.unwrap()` firing) is embedded as `Option.none`; a normal
  return is `some`.  Functions that cannot panic keep a plain `Except`.
* The visitor closures `F: FnOnce(&DTree) -> R` of `with_subdir` are pure, so
  the read-only traversal is embedded as returning the resolved subtree, the
  caller mapping its visitor over the `Except`.  The mutating traversal takes
  the closure explicitly as `f : DTree → Option DTree` (`none` = the closure
  panicked, as in `|dtree| dtree.mkdir(name).unwrap()`).
-/

/-- Rust `&str`, embedded as a list of characters. -/
abbrev Str := List Char

/-- The `DirError` enum from `src/lib.rs`: errors during directory interaction. -/
inductive DirError where
  /-- The character `/` in component names is disallowed. -/
  | SlashInName (name : Str)
  /-- Only one subdirectory of a given name can exist in any directory. -/
  | DirExists (name : Str)
  /-- Traversal failed due to missing subdirectory. -/
  | InvalidChild (name : Str)
deriving DecidableEq, Repr

mutual
/-- The `DTree` type from `src/lib.rs`: a directory tree, a vector of child entries. -/
inductive DTree where
  | mk (children : List DEnt) : DTree
deriving Repr
/-- The `DEnt` type from `src/lib.rs`: a directory entry, a name with a subtree. -/
inductive DEnt where
  | mk (name : Str) (subdir : DTree) : DEnt
deriving Repr
end

/-- Field accessor for `DTree.children`. -/
def DTree.children : DTree → List DEnt
  | .mk cs => cs

/-- Field accessor for `DEnt.name`. -/
def DEnt.name : DEnt → Str
  | .mk n _ => n

/-- Field accessor for `DEnt.subdir`. -/
def DEnt.subdir : DEnt → DTree
  | .mk _ t => t

/-- Embeds `DTree::new`: a new empty directory tree (the `Default` impl). -/
def DTree.new : DTree := .mk []

/-- Embeds `DEnt::new`: rejects names containing `/`, else a fresh entry with an
empty subtree. -/
def DEnt.new (name : Str) : Except DirError DEnt :=
  if name.contains '/' then .error (.SlashInName name)
  else .ok (.mk name DTree.new)

/-- Embeds `DTree::mkdir`: make a subdirectory with the given name.  The source
checks the slash first, then scans `children` for a duplicate, then pushes
the entry built by `DEnt::new(name).unwrap()` — that unwrap cannot fire
because the slash check already passed, so the push is embedded directly. -/
def DTree.mkdir (t : DTree) (name : Str) : Except DirError DTree :=
  if name.contains '/' then .error (.SlashInName name)
  else if t.children.any (fun x => x.name == name) then .error (.DirExists name)
  else .ok (.mk (t.children ++ [.mk name (.mk [])]))

/-- The recursion of `DTree::subdir`, consuming path components front-first.
The Rust function pops components from the back of its vector argument; the
embedding reverses the vector once (in `DTree.subdir`) and consumes the head,
which is the same consumption order. -/
def subdirGo : DTree → List Str → Except DirError DTree
  | t, [] => .ok t
  | t, name :: rest =>
    match t.children.find? (fun x => x.name == name) with
    | some x => subdirGo x.subdir rest
    | none => .error (.InvalidChild name)

/-- Embeds `DTree::subdir`: takes the pre-reversed path vector and pops names from
its back; the visitor is applied to the resolved subtree, which the embedding
returns. -/
def DTree.subdir (t : DTree) (path : List Str) : Except DirError DTree :=
  subdirGo t path.reverse

/-- Embeds `DTree::with_subdir`: rejects the empty path with `InvalidChild("")`,
else reverses `path` into a vector and calls `subdir`. -/
def DTree.with_subdir (t : DTree) (path : List Str) : Except DirError DTree :=
  if path.isEmpty then .error (.InvalidChild [])
  else t.subdir path.reverse

/-- One level of `DTree::subdir_mut`'s child scan: find the first child named
`name`, rebuild the children list with that child's subtree replaced by the
outcome of the continuation `k` (the recursive descent); report
`InvalidChild(name)` when no child matches. -/
def modifyChild (k : DTree → Option (Except DirError DTree)) (name : Str) :
    List DEnt → Option (Except DirError (List DEnt))
  | [] => some (.error (.InvalidChild name))
  | x :: xs =>
    if x.name == name then
      (k x.subdir).map (fun r => r.map (fun t => DEnt.mk x.name t :: xs))
    else
      (modifyChild k name xs).map (fun r => r.map (fun l => x :: l))

/-- The recursion of `DTree::subdir_mut` in state-passing form.  At the end of
the path the closure `f` runs on the resolved node (`none` = the closure
panicked); otherwise the matching child's subtree is rebuilt.  As in
`subdirGo`, the pre-reversed vector is reversed once by the caller and
consumed from the head. -/
def subdirMutGo (f : DTree → Option DTree) : DTree → List Str → Option (Except DirError DTree)
  | t, [] => (f t).map .ok
  | t, name :: rest =>
    (modifyChild (fun sub => subdirMutGo f sub rest) name t.children).map
      (fun r => r.map DTree.mk)

/-- Embeds `DTree::subdir_mut`: takes the pre-reversed path vector, pops names from
its back and runs `f` on the resolved node. -/
def DTree.subdir_mut (t : DTree) (path : List Str) (f : DTree → Option DTree) :
    Option (Except DirError DTree) :=
  subdirMutGo f t path.reverse

/-- Embeds `DTree::with_subdir_mut`: rejects the empty path with
`InvalidChild("empty path")`, else reverses `path` and calls `subdir_mut`. -/
def DTree.with_subdir_mut (t : DTree) (path : List Str) (f : DTree → Option DTree) :
    Option (Except DirError DTree) :=
  if path.isEmpty then some (.error (.InvalidChild "empty path".toList))
  else t.subdir_mut path.reverse f

mutual
/-- Embeds `DEnt::paths`: a childless entry contributes its own name plus a trailing
separator; otherwise every path of every child, prefixed by this entry's name
and a separator. -/
def DEnt.paths : DEnt → List Str
  | .mk name (.mk []) => [name ++ ['/']]
  | .mk name (.mk (c :: cs)) => entPaths name (c :: cs)
/-- The double loop of `DEnt::paths`: for each child `x`, for each `y` in
`x.paths()`, push `name + "/" + y`. -/
def entPaths (name : Str) : List DEnt → List Str
  | [] => []
  | x :: xs => (DEnt.paths x).map (fun y => name ++ '/' :: y) ++ entPaths name xs
end

/-- The loop of `DTree::paths`: for each child `x`, for each `y` in
`x.paths()`, push `"/" + y`. -/
def rootPaths : List DEnt → List Str
  | [] => []
  | x :: xs => (DEnt.paths x).map (fun y => '/' :: y) ++ rootPaths xs

/-- Embeds `DTree::paths`: the paths to each reachable leaf, components prefixed
by `/`. -/
def DTree.paths (t : DTree) : List Str :=
  rootPaths t.children

/-- The `OsState` type from `src/lib.rs`: the directory tree and the current working
directory. -/
structure OsState where
  dtree : DTree
  cwd : List Str
deriving Repr

/-- Embeds `OsState::new`: empty tree, working directory at the root (the `Default`
impl). -/
def OsState.new : OsState := ⟨DTree.mk [], []⟩

/-- Embeds `OsState::chdir`.  Empty `path` clears `cwd`.  Otherwise the source
resolves the stored `cwd` (reversed into a vector) against the tree and
`.unwrap()`s that outer `Result` — embedded as `none` (panic) when it fails —
then runs `with_subdir(path, |_| {})` on the resolved directory: on success
`cwd` is extended by `path`; on failure the error `InvalidChild("chdir")` is
returned and the state is left unchanged. -/
def OsState.chdir (s : OsState) (path : List Str) : Option (OsState × Except DirError Unit) :=
  if path.isEmpty then some ({ s with cwd := [] }, .ok ())
  else
    match s.dtree.subdir s.cwd.reverse with
    | .error _ => none
    | .ok dir =>
      match dir.with_subdir path with
      | .ok _ => some ({ s with cwd := s.cwd ++ path }, .ok ())
      | .error _ => some (s, .error (.InvalidChild "chdir".toList))

/-- Embeds `OsState::mkdir`.  A slash in `name` is rejected first; with an empty
`cwd` the root tree's `mkdir` runs directly; otherwise `subdir_mut` descends
the reversed `cwd` and runs the closure `|dtree| dtree.mkdir(name).unwrap()`
on the resolved node — the unwrap makes a nested `mkdir` failure a panic
(`none`), not an error return. -/
def OsState.mkdir (s : OsState) (name : Str) : Option (OsState × Except DirError Unit) :=
  if name.contains '/' then some (s, .error (.SlashInName name))
  else if s.cwd.isEmpty then
    match s.dtree.mkdir name with
    | .ok t => some ({ s with dtree := t }, .ok ())
    | .error e => some (s, .error e)
  else
    match s.dtree.subdir_mut s.cwd.reverse (fun dtree => (dtree.mkdir name).toOption) with
    | none => none
    | some (.error e) => some (s, .error e)
    | some (.ok t) => some ({ s with dtree := t }, .ok ())

/-- Embeds `OsState::paths`: with an empty `cwd`, the root tree's paths; otherwise
the paths of the directory the reversed `cwd` resolves to. -/
def OsState.paths (s : OsState) : Except DirError (List Str) :=
  if s.cwd.isEmpty then .ok s.dtree.paths
  else (s.dtree.subdir s.cwd.reverse).map DTree.paths

/-- Boolean success test for `Except`. -/
def exceptIsOk {ε α : Type} : Except ε α → Bool
  | .ok _ => true
  | .error _ => false

/-- The `cwd`-validity invariant of `OsState`: the stored working directory,
resolved exactly the way `chdir`/`paths` resolve it, denotes an existing
node of the root tree. -/
def OsState.cwdValid (s : OsState) : Bool :=
  exceptIsOk (s.dtree.subdir s.cwd.reverse)

/-- The states reachable from `OsState::new` through the public mutating
operations (`mkdir`, `chdir`); `paths` takes `&self` and never changes the
state.  A `none` outcome is a panic, after which there is no successor
state. -/
inductive Reachable : OsState → Prop where
  | new : Reachable OsState.new
  | mkdirStep (s : OsState) (name : Str) (s' : OsState) (r : Except DirError Unit) :
      Reachable s → s.mkdir name = some (s', r) → Reachable s'
  | chdirStep (s : OsState) (path : List Str) (s' : OsState) (r : Except DirError Unit) :
      Reachable s → s.chdir path = some (s', r) → Reachable s'

/-- The trees built purely from `create_child` (`DTree::mkdir`) calls: the
empty tree, and any tree obtained from a built tree by a successful `mkdir`
at a node reached by the mutable traversal (path given front-first, the
closure being `mkdir(name).unwrap()` exactly as the crate composes them). -/
inductive Built : DTree → Prop where
  | new : Built DTree.new
  | mkdirAt (t : DTree) (path : List Str) (name : Str) (t' : DTree) :
      Built t →
      subdirMutGo (fun u => (u.mkdir name).toOption) t path = some (.ok t') →
      Built t'

mutual
/-- Modelled from the spec: the number of leaf nodes (nodes with zero
children) properly below an entry's position — a childless entry is itself
one leaf. -/
def DEnt.leafCount : DEnt → Nat
  | .mk _ (.mk []) => 1
  | .mk _ (.mk (c :: cs)) => leafCountEnts (c :: cs)
/-- Sum of `DEnt.leafCount` over a list of entries. -/
def leafCountEnts : List DEnt → Nat
  | [] => 0
  | e :: es => DEnt.leafCount e + leafCountEnts es
end

/-- Modelled from the spec: the number of leaf nodes reachable below the
enumeration root (the root itself carries no name and contributes no path). -/
def DTree.leafCount (t : DTree) : Nat :=
  leafCountEnts t.children

mutual
/-- Modelled from the spec: the name sequences from an entry down to each
reachable leaf, the entry's own name included. -/
def DEnt.leafSeqs : DEnt → List (List Str)
  | .mk name (.mk []) => [[name]]
  | .mk name (.mk (c :: cs)) => (leafSeqsEnts (c :: cs)).map (fun l => name :: l)
/-- Concatenation of `DEnt.leafSeqs` over a list of entries. -/
def leafSeqsEnts : List DEnt → List (List Str)
  | [] => []
  | e :: es => DEnt.leafSeqs e ++ leafSeqsEnts es
end

/-- Modelled from the spec: the name sequences from the enumeration root down
to each reachable leaf. -/
def DTree.leafSeqs (t : DTree) : List (List Str) :=
  leafSeqsEnts t.children

/-- The rendering of a name sequence as a path string: every component
followed by a trailing separator (no leading separator; `DTree.paths` adds
that one). -/
def renderSeq : List Str → Str
  | [] => []
  | n :: l => n ++ '/' :: renderSeq l

/-- Split a string at every occurrence of the separator `/` (the separator is
consumed; `k` separators yield `k + 1` fields). -/
def splitSlash : Str → List Str
  | [] => [[]]
  | c :: s =>
    if c = '/' then [] :: splitSlash s
    else
      match splitSlash s with
      | [] => [[c]]
      | p :: ps => (c :: p) :: ps

/-- The slash-delimited components of a path string of the form
`/name1/.../nameK/`: the fields of `splitSlash` without the empty leading and
trailing fields produced by the boundary separators. -/
def components (s : Str) : List Str :=
  ((splitSlash s).drop 1).dropLast

mutual
/-- Every name stored in the entry or below it is free of the separator
character (the invariant `DTree::mkdir` maintains). -/
def DEnt.slashFree : DEnt → Bool
  | .mk name (.mk cs) => !name.contains '/' && slashFreeEnts cs
/-- Conjunction of `DEnt.slashFree` over a list of entries. -/
def slashFreeEnts : List DEnt → Bool
  | [] => true
  | e :: es => DEnt.slashFree e && slashFreeEnts es
end

/-- Slash-freeness of every entry of the root's tree. -/
def DTree.slashFree (t : DTree) : Bool :=
  slashFreeEnts t.children

/-! ## Basic lemmas about the traversals -/

theorem DTree.subdir_reverse (t : DTree) (l : List Str) :
    t.subdir l.reverse = subdirGo t l := by
  simp [DTree.subdir]

theorem DTree.with_subdir_ne_nil (t : DTree) (path : List Str) (h : path ≠ []) :
    t.with_subdir path = subdirGo t path := by
  simp [DTree.with_subdir, List.isEmpty_iff, h, DTree.subdir]

theorem DTree.subdir_mut_reverse (t : DTree) (l : List Str) (f : DTree → Option DTree) :
    t.subdir_mut l.reverse f = subdirMutGo f t l := by
  simp [DTree.subdir_mut]

/-! ## C2 — resolution of the empty path -/

/-- C2 counterexample: the claim says `with_subdir` and `with_subdir_mut`
applied to the empty sequence succeed and resolve to the node itself; on the
fresh tree both in fact fail with `InvalidChild`. -/
theorem with_subdir_empty_path_fails :
    DTree.new.with_subdir [] = .error (.InvalidChild []) ∧
    DTree.new.with_subdir_mut [] some = some (.error (.InvalidChild "empty path".toList)) :=
  ⟨rfl, rfl⟩

/-- C2 (amended): the inner recursive traversals `subdir` / `subdir_mut`
resolve the empty vector to the node itself (the visitor runs on `self`);
the public wrappers `with_subdir` / `with_subdir_mut` instead reject an empty
path outright, with `InvalidChild("")` and `InvalidChild("empty path")`
respectively. -/
theorem empty_path_resolution (t : DTree) (f : DTree → Option DTree) :
    subdirGo t [] = .ok t ∧
    t.subdir [] = .ok t ∧
    subdirMutGo f t [] = (f t).map Except.ok ∧
    t.subdir_mut [] f = (f t).map Except.ok ∧
    t.with_subdir [] = .error (.InvalidChild []) ∧
    t.with_subdir_mut [] f = some (.error (.InvalidChild "empty path".toList)) :=
  ⟨rfl, rfl, rfl, rfl, rfl, rfl⟩

/-! ## C5 — separator rejection -/

/-- C5: a name containing the separator `/` is rejected by `DTree::mkdir` and
by `OsState::mkdir` with `SlashInName` (the crate's spelling of
`InvalidName`), and no node is added: the tree method returns an error and no
new tree, and the session is returned unchanged. -/
theorem slash_name_rejected (t : DTree) (s : OsState) (name : Str)
    (h : name.contains '/' = true) :
    t.mkdir name = .error (.SlashInName name) ∧
    s.mkdir name = some (s, .error (.SlashInName name)) := by
  have h' : '/' ∈ name := by simpa using h
  constructor
  · simp [DTree.mkdir, h']
  · simp [OsState.mkdir, h']

/-- Witness for C5 at `name = "/a"` on the fresh tree and session. -/
theorem slash_name_rejected_witness :
    "/a".toList.contains '/' = true ∧
    (DTree.new.mkdir "/a".toList = .error (.SlashInName "/a".toList) ∧
     OsState.new.mkdir "/a".toList = some (OsState.new, .error (.SlashInName "/a".toList))) :=
  ⟨by decide, slash_name_rejected DTree.new OsState.new "/a".toList (by decide)⟩

/-! ## C9 — leaf enumeration of a childless node -/

/-- C9: `paths` on a node with no children returns the empty list — in
particular the fresh session's `paths` is `Ok([])`, not a singleton root
path. -/
theorem paths_childless (t : DTree) (h : t.children = []) :
    t.paths = [] ∧ OsState.new.paths = .ok [] := by
  obtain ⟨cs⟩ := t
  simp only [DTree.children] at h
  subst h
  exact ⟨rfl, rfl⟩

/-- Witness for C9 at the fresh tree. -/
theorem paths_childless_witness :
    DTree.new.children = [] ∧ (DTree.new.paths = [] ∧ OsState.new.paths = .ok []) :=
  ⟨rfl, paths_childless DTree.new rfl⟩

/-! ## C7 — the chdir/mkdir composition scenario -/

/-- C7: from a fresh session, `mkdir "a"`, `chdir ["a"]`, `mkdir "b"`,
`chdir ["b"]`, `mkdir "c"`, `chdir []` all succeed, and `paths` then returns
exactly `["/a/b/c/"]`. -/
theorem chdir_mkdir_composition :
    OsState.new.mkdir "a".toList =
      some (⟨DTree.mk [DEnt.mk "a".toList (DTree.mk [])], []⟩, .ok ()) ∧
    (OsState.mk (DTree.mk [DEnt.mk "a".toList (DTree.mk [])]) []).chdir ["a".toList] =
      some (⟨DTree.mk [DEnt.mk "a".toList (DTree.mk [])], ["a".toList]⟩, .ok ()) ∧
    (OsState.mk (DTree.mk [DEnt.mk "a".toList (DTree.mk [])]) ["a".toList]).mkdir "b".toList =
      some (⟨DTree.mk [DEnt.mk "a".toList (DTree.mk [DEnt.mk "b".toList (DTree.mk [])])],
             ["a".toList]⟩, .ok ()) ∧
    (OsState.mk (DTree.mk [DEnt.mk "a".toList (DTree.mk [DEnt.mk "b".toList (DTree.mk [])])])
        ["a".toList]).chdir ["b".toList] =
      some (⟨DTree.mk [DEnt.mk "a".toList (DTree.mk [DEnt.mk "b".toList (DTree.mk [])])],
             ["a".toList, "b".toList]⟩, .ok ()) ∧
    (OsState.mk (DTree.mk [DEnt.mk "a".toList (DTree.mk [DEnt.mk "b".toList (DTree.mk [])])])
        ["a".toList, "b".toList]).mkdir "c".toList =
      some (⟨DTree.mk [DEnt.mk "a".toList (DTree.mk [DEnt.mk "b".toList
              (DTree.mk [DEnt.mk "c".toList (DTree.mk [])])])],
             ["a".toList, "b".toList]⟩, .ok ()) ∧
    (OsState.mk (DTree.mk [DEnt.mk "a".toList (DTree.mk [DEnt.mk "b".toList
          (DTree.mk [DEnt.mk "c".toList (DTree.mk [])])])])
        ["a".toList, "b".toList]).chdir [] =
      some (⟨DTree.mk [DEnt.mk "a".toList (DTree.mk [DEnt.mk "b".toList
              (DTree.mk [DEnt.mk "c".toList (DTree.mk [])])])], []⟩, .ok ()) ∧
    (OsState.mk (DTree.mk [DEnt.mk "a".toList (DTree.mk [DEnt.mk "b".toList
          (DTree.mk [DEnt.mk "c".toList (DTree.mk [])])])]) []).paths =
      .ok ["/a/b/c/".toList] :=
  ⟨rfl, rfl, rfl, rfl, rfl, rfl, rfl⟩

/-! ## C1 — duplicate creation under a non-root working directory -/

/-- C1: the claim (and the crate's own doc comment on `OsState::mkdir`) says
a duplicate name yields the `DirExists` error as an explicit result with no
panic.  That holds at the root, but with a non-root working directory the
source unwraps the nested `mkdir` inside the `subdir_mut` closure, so the
duplicate panics instead: after `mkdir "a"; chdir ["a"]; mkdir "b"`, a second
`mkdir "b"` evaluates to `none` (panic), while the same duplicate at the root
returns `DirExists` properly. -/
theorem mkdir_duplicate_in_subdir_panics :
    (OsState.mk (DTree.mk [DEnt.mk "a".toList (DTree.mk [])]) []).mkdir "a".toList =
      some (OsState.mk (DTree.mk [DEnt.mk "a".toList (DTree.mk [])]) [],
            .error (.DirExists "a".toList)) ∧
    (OsState.mk (DTree.mk [DEnt.mk "a".toList (DTree.mk [DEnt.mk "b".toList (DTree.mk [])])])
        ["a".toList]).mkdir "b".toList = none :=
  ⟨rfl, rfl⟩

/-! ## C3 / C4 — failing `chdir` -/

/-- A failing traversal pinpoints the first missing component: the path
splits as `pre ++ n :: post` where `pre` resolves and `n` matches no child
there, and the error carries exactly that `n`. -/
theorem subdirGo_error_decomp (p : List Str) : ∀ (t : DTree) (e : DirError),
    subdirGo t p = .error e →
    ∃ pre n post d, p = pre ++ n :: post ∧ subdirGo t pre = .ok d ∧
      d.children.find? (fun x => x.name == n) = none ∧ e = .InvalidChild n := by
  induction p with
  | nil => intro t e h; simp [subdirGo] at h
  | cons name rest ih =>
    intro t e h
    rw [subdirGo] at h
    cases hf : t.children.find? (fun x => x.name == name) with
    | none =>
      rw [hf] at h
      refine ⟨[], name, rest, t, rfl, rfl, hf, ?_⟩
      cases h
      rfl
    | some x =>
      rw [hf] at h
      obtain ⟨pre, n, post, d, hp, hres, hfind, he⟩ := ih x.subdir e h
      refine ⟨name :: pre, n, post, d, by rw [hp]; rfl, ?_, hfind, he⟩
      rw [subdirGo, hf]
      exact hres

/-- C3: with a valid working directory and a non-empty path whose resolution
fails, `chdir` returns an error and the whole state — in particular `cwd` —
is returned unchanged: the update is all-or-nothing. -/
theorem chdir_failure_preserves_state (s : OsState) (path : List Str) (dir : DTree)
    (h1 : s.dtree.subdir s.cwd.reverse = .ok dir)
    (h2 : path ≠ [])
    (h3 : exceptIsOk (dir.with_subdir path) = false) :
    s.chdir path = some (s, .error (.InvalidChild "chdir".toList)) := by
  have hp : path.isEmpty = false := by simpa [List.isEmpty_iff] using h2
  cases hw : dir.with_subdir path with
  | ok v => rw [hw] at h3; simp [exceptIsOk] at h3
  | error e => simp [OsState.chdir, hp, h1, hw]

/-- Witness for C3: a session holding only `x` at the root, `chdir ["q"]`. -/
theorem chdir_failure_preserves_state_witness :
    ((OsState.mk (DTree.mk [DEnt.mk "x".toList (DTree.mk [])]) []).dtree.subdir
        (([] : List Str).reverse) = .ok (DTree.mk [DEnt.mk "x".toList (DTree.mk [])])) ∧
    (["q".toList] : List Str) ≠ [] ∧
    exceptIsOk ((DTree.mk [DEnt.mk "x".toList (DTree.mk [])]).with_subdir ["q".toList]) = false ∧
    (OsState.mk (DTree.mk [DEnt.mk "x".toList (DTree.mk [])]) []).chdir ["q".toList] =
      some (OsState.mk (DTree.mk [DEnt.mk "x".toList (DTree.mk [])]) [],
            .error (.InvalidChild "chdir".toList)) :=
  ⟨rfl, by decide, rfl,
   chdir_failure_preserves_state (OsState.mk (DTree.mk [DEnt.mk "x".toList (DTree.mk [])]) [])
     ["q".toList] (DTree.mk [DEnt.mk "x".toList (DTree.mk [])]) rfl (by decide) rfl⟩

/-- C4 counterexample: the claim says a failing `chdir` reports the specific
missing component name.  With only `x` at the root, `chdir ["q"]` fails
because `q` is missing, yet the returned error is `InvalidChild("chdir")`,
not `InvalidChild("q")` — the nested error is not passed through. -/
theorem chdir_error_discards_name :
    (OsState.mk (DTree.mk [DEnt.mk "x".toList (DTree.mk [])]) []).chdir ["q".toList] =
      some (OsState.mk (DTree.mk [DEnt.mk "x".toList (DTree.mk [])]) [],
            .error (.InvalidChild "chdir".toList)) ∧
    DirError.InvalidChild "chdir".toList ≠ DirError.InvalidChild "q".toList :=
  ⟨rfl, by decide⟩

/-- C4 (amended): the `DTree`-level traversal does report the first missing
component by name (`InvalidChild n` with the path splitting around `n`), but
`OsState::chdir` swallows that nested error and returns the constant
`InvalidChild("chdir")` instead, so the missing name does not reach `chdir`'s
caller. -/
theorem chdir_error_name (s : OsState) (path : List Str) (dir : DTree) (e : DirError)
    (h1 : s.dtree.subdir s.cwd.reverse = .ok dir)
    (h2 : path ≠ [])
    (h3 : dir.with_subdir path = .error e) :
    (∃ pre n post d, path = pre ++ n :: post ∧ subdirGo dir pre = .ok d ∧
        d.children.find? (fun x => x.name == n) = none ∧ e = .InvalidChild n) ∧
    s.chdir path = some (s, .error (.InvalidChild "chdir".toList)) := by
  constructor
  · apply subdirGo_error_decomp
    rw [← DTree.with_subdir_ne_nil dir path h2]
    exact h3
  · have hp : path.isEmpty = false := by simpa [List.isEmpty_iff] using h2
    simp [OsState.chdir, hp, h1, h3]

/-- Witness for C4: only `x` at the root, `chdir ["x", "zz"]` fails at the
second component. -/
theorem chdir_error_name_witness :
    ((OsState.mk (DTree.mk [DEnt.mk "x".toList (DTree.mk [])]) []).dtree.subdir
        (([] : List Str).reverse) = .ok (DTree.mk [DEnt.mk "x".toList (DTree.mk [])])) ∧
    (["x".toList, "zz".toList] : List Str) ≠ [] ∧
    (DTree.mk [DEnt.mk "x".toList (DTree.mk [])]).with_subdir ["x".toList, "zz".toList] =
      .error (.InvalidChild "zz".toList) ∧
    ((∃ pre n post d, (["x".toList, "zz".toList] : List Str) = pre ++ n :: post ∧
        subdirGo (DTree.mk [DEnt.mk "x".toList (DTree.mk [])]) pre = .ok d ∧
        d.children.find? (fun x => x.name == n) = none ∧
        DirError.InvalidChild "zz".toList = .InvalidChild n) ∧
     (OsState.mk (DTree.mk [DEnt.mk "x".toList (DTree.mk [])]) []).chdir
        ["x".toList, "zz".toList] =
       some (OsState.mk (DTree.mk [DEnt.mk "x".toList (DTree.mk [])]) [],
             .error (.InvalidChild "chdir".toList))) :=
  ⟨rfl, by decide, rfl,
   chdir_error_name (OsState.mk (DTree.mk [DEnt.mk "x".toList (DTree.mk [])]) [])
     ["x".toList, "zz".toList] (DTree.mk [DEnt.mk "x".toList (DTree.mk [])])
     (DirError.InvalidChild "zz".toList) rfl (by decide) rfl⟩

/-! ## C6 — leaf enumeration -/

theorem dent_paths_render (e : DEnt) :
    DEnt.paths e = (DEnt.leafSeqs e).map renderSeq := by
  refine DEnt.paths.induct
    (fun e => DEnt.paths e = (DEnt.leafSeqs e).map renderSeq)
    (fun name xs => entPaths name xs =
      (leafSeqsEnts xs).map (fun l => renderSeq (name :: l)))
    ?_ ?_ ?_ ?_ e
  · intro name
    simp [DEnt.paths, DEnt.leafSeqs, renderSeq]
  · intro name c cs ih
    simp [DEnt.paths, DEnt.leafSeqs, ih, List.map_map, Function.comp]
  · intro name
    simp [entPaths, leafSeqsEnts]
  · intro name x xs ih1 ih2
    simp [entPaths, leafSeqsEnts, ih1, ih2, List.map_map, Function.comp, renderSeq]

theorem rootPaths_render (cs : List DEnt) :
    rootPaths cs = (leafSeqsEnts cs).map (fun l => '/' :: renderSeq l) := by
  induction cs with
  | nil => simp [rootPaths, leafSeqsEnts]
  | cons x xs ih =>
    simp [rootPaths, leafSeqsEnts, ih, dent_paths_render x, List.map_map, Function.comp]

/-- The enumeration `DTree::paths` returns exactly the leaf name-sequences, each rendered as
`/name1/.../nameK/`. -/
theorem dtree_paths_render (t : DTree) :
    t.paths = t.leafSeqs.map (fun l => '/' :: renderSeq l) := by
  obtain ⟨cs⟩ := t
  simpa [DTree.paths, DTree.leafSeqs, DTree.children] using rootPaths_render cs

theorem dent_leafSeqs_length (e : DEnt) :
    (DEnt.leafSeqs e).length = DEnt.leafCount e := by
  refine DEnt.leafSeqs.induct
    (fun e => (DEnt.leafSeqs e).length = DEnt.leafCount e)
    (fun xs => (leafSeqsEnts xs).length = leafCountEnts xs)
    ?_ ?_ ?_ ?_ e
  · intro name
    simp [DEnt.leafSeqs, DEnt.leafCount]
  · intro name c cs ih
    simp [DEnt.leafSeqs, DEnt.leafCount, ih]
  · simp [leafSeqsEnts, leafCountEnts]
  · intro x xs ih1 ih2
    simp [leafSeqsEnts, leafCountEnts, ih1, ih2]

theorem leafSeqsEnts_length (cs : List DEnt) :
    (leafSeqsEnts cs).length = leafCountEnts cs := by
  induction cs with
  | nil => simp [leafSeqsEnts, leafCountEnts]
  | cons x xs ih => simp [leafSeqsEnts, leafCountEnts, ih, dent_leafSeqs_length x]

theorem splitSlash_ne_nil (s : Str) : splitSlash s ≠ [] := by
  induction s with
  | nil => simp [splitSlash]
  | cons c s ih =>
    rw [splitSlash]
    split
    · simp
    · cases hs : splitSlash s with
      | nil => simp
      | cons p ps => simp

/-- Splitting a string that starts with a slash-free component followed by a
separator peels off exactly that component. -/
theorem splitSlash_component (n : Str) (s : Str) (h : n.contains '/' = false) :
    splitSlash (n ++ '/' :: s) = n :: splitSlash s := by
  induction n with
  | nil => simp [splitSlash]
  | cons c n ih =>
    have hc : ¬ c = '/' := by
      intro hc
      subst hc
      simp at h
    have hn : n.contains '/' = false := by
      simp at h
      simp [h]
    rw [List.cons_append, splitSlash, if_neg hc, ih hn]

/-- Splitting the rendering of a slash-free name sequence yields the sequence
followed by the empty field after the final separator. -/
theorem splitSlash_renderSeq (l : List Str) (h : ∀ n ∈ l, n.contains '/' = false) :
    splitSlash (renderSeq l) = l ++ [[]] := by
  induction l with
  | nil => simp [renderSeq, splitSlash]
  | cons n l ih =>
    rw [renderSeq, splitSlash_component n _ (h n (by simp)),
      ih (fun m hm => h m (by simp [hm]))]
    rfl

/-- The slash-delimited components of the full path string `/name1/.../nameK/`
are exactly the name sequence, provided no name contains the separator. -/
theorem components_render (l : List Str) (h : ∀ n ∈ l, n.contains '/' = false) :
    components ('/' :: renderSeq l) = l := by
  have hs : splitSlash ('/' :: renderSeq l) = [] :: (l ++ [[]]) := by
    rw [splitSlash, if_pos rfl, splitSlash_renderSeq l h]
  rw [components, hs]
  simp

/-- A helper to read `DEnt.slashFree` through the constructor. -/
theorem dent_slashFree_mk (n : Str) (t : DTree) :
    DEnt.slashFree (DEnt.mk n t) = (!n.contains '/' && slashFreeEnts t.children) := by
  obtain ⟨cs⟩ := t
  rfl

/-- In a slash-free tree, every name on every root-to-leaf sequence is free of
the separator character. -/
theorem leafSeqsEnts_slashFree (cs : List DEnt) (h : slashFreeEnts cs = true) :
    ∀ l ∈ leafSeqsEnts cs, ∀ n ∈ l, n.contains '/' = false := by
  refine leafSeqsEnts.induct
    (fun e => DEnt.slashFree e = true → ∀ l ∈ DEnt.leafSeqs e, ∀ n ∈ l,
      n.contains '/' = false)
    (fun xs => slashFreeEnts xs = true → ∀ l ∈ leafSeqsEnts xs, ∀ n ∈ l,
      n.contains '/' = false)
    ?_ ?_ ?_ ?_ cs h
  · intro name hsf l hl n hn
    rw [dent_slashFree_mk] at hsf
    simp only [DEnt.leafSeqs, List.mem_singleton] at hl
    subst hl
    simp only [List.mem_singleton] at hn
    subst hn
    simpa using And.left (by simpa using hsf)
  · intro name c csx ih hsf l hl n hn
    rw [dent_slashFree_mk] at hsf
    simp only [Bool.and_eq_true, Bool.not_eq_true'] at hsf
    simp only [DEnt.leafSeqs, List.mem_map] at hl
    obtain ⟨l', hl', rfl⟩ := hl
    simp only [List.mem_cons] at hn
    rcases hn with rfl | hn
    · exact hsf.1
    · exact ih hsf.2 l' hl' n hn
  · intro _ l hl
    simp [leafSeqsEnts] at hl
  · intro x xs ih1 ih2 hsf l hl n hn
    simp only [slashFreeEnts, Bool.and_eq_true] at hsf
    simp only [leafSeqsEnts, List.mem_append] at hl
    rcases hl with hl | hl
    · exact ih1 hsf.1 l hl n hn
    · exact ih2 hsf.2 l hl n hn

theorem slashFreeEnts_append (a b : List DEnt) :
    slashFreeEnts (a ++ b) = (slashFreeEnts a && slashFreeEnts b) := by
  induction a with
  | nil => simp [slashFreeEnts]
  | cons x xs ih => simp [slashFreeEnts, ih, Bool.and_assoc]

/-- A successful `DTree::mkdir` preserves slash-freeness: the new name passed
the slash check. -/
theorem mkdir_slashFree (t t' : DTree) (name : Str) (h : t.mkdir name = .ok t')
    (hs : t.slashFree = true) : t'.slashFree = true := by
  obtain ⟨cs⟩ := t
  rw [DTree.mkdir] at h
  split at h
  · exact absurd h (by simp)
  next hc =>
    split at h
    · exact absurd h (by simp)
    · cases h
      have hc' : name.contains '/' = false := by simpa using hc
      simp only [DTree.slashFree, DTree.children] at hs ⊢
      rw [slashFreeEnts_append, hs]
      simp only [slashFreeEnts, dent_slashFree_mk, DTree.children, hc']
      rfl

/-- The rebuild step `modifyChild` preserves slash-freeness of the children list whenever its
continuation preserves slash-freeness of the subtree it rewrites. -/
theorem modifyChild_slashFree (k : DTree → Option (Except DirError DTree)) (name : Str)
    (hk : ∀ u v, k u = some (.ok v) → DTree.slashFree u = true → DTree.slashFree v = true) :
    ∀ xs xs', modifyChild k name xs = some (.ok xs') →
      slashFreeEnts xs = true → slashFreeEnts xs' = true := by
  intro xs
  induction xs with
  | nil =>
    intro xs' h
    rw [modifyChild] at h
    simp at h
  | cons x xsr ih =>
    intro xs' h hsf
    obtain ⟨n, sub⟩ := x
    rw [slashFreeEnts, Bool.and_eq_true] at hsf
    rw [modifyChild] at h
    split at h
    · cases hk0 : k (DEnt.mk n sub).subdir with
      | none => rw [hk0] at h; simp at h
      | some r =>
        rw [hk0] at h
        cases r with
        | error e => simp [Except.map] at h
        | ok t2 =>
          simp only [Option.map_some', Except.map, Option.some.injEq,
            Except.ok.injEq] at h
          subst h
          rw [slashFreeEnts, Bool.and_eq_true]
          refine ⟨?_, hsf.2⟩
          have hsub : DTree.slashFree sub = true := by
            have h1 := hsf.1
            rw [dent_slashFree_mk, Bool.and_eq_true] at h1
            simpa [DTree.slashFree] using h1.2
          have ht2 := hk sub t2 (by simpa [DEnt.subdir] using hk0) hsub
          rw [dent_slashFree_mk, Bool.and_eq_true]
          refine ⟨?_, by simpa [DTree.slashFree] using ht2⟩
          have h1 := hsf.1
          rw [dent_slashFree_mk, Bool.and_eq_true] at h1
          simpa [DEnt.name] using h1.1
    · cases hm : modifyChild k name xsr with
      | none => rw [hm] at h; simp at h
      | some r =>
        rw [hm] at h
        cases r with
        | error e => simp [Except.map] at h
        | ok l2 =>
          simp only [Option.map_some', Except.map, Option.some.injEq,
            Except.ok.injEq] at h
          subst h
          rw [slashFreeEnts, Bool.and_eq_true]
          exact ⟨hsf.1, ih l2 hm hsf.2⟩

/-- The mutable traversal preserves slash-freeness whenever the closure
does. -/
theorem subdirMutGo_slashFree (f : DTree → Option DTree)
    (hf : ∀ u v, f u = some v → DTree.slashFree u = true → DTree.slashFree v = true) :
    ∀ (p : List Str) (t t' : DTree), subdirMutGo f t p = some (.ok t') →
      t.slashFree = true → t'.slashFree = true := by
  intro p
  induction p with
  | nil =>
    intro t t' h hs
    rw [subdirMutGo] at h
    cases hf0 : f t with
    | none => rw [hf0] at h; simp at h
    | some u =>
      rw [hf0] at h
      simp only [Option.map_some', Option.some.injEq, Except.ok.injEq] at h
      subst h
      exact hf t u hf0 hs
  | cons name rest ih =>
    intro t t' h hs
    rw [subdirMutGo] at h
    cases hm : modifyChild (fun sub => subdirMutGo f sub rest) name t.children with
    | none => rw [hm] at h; simp at h
    | some r =>
      rw [hm] at h
      cases r with
      | error e => simp [Except.map] at h
      | ok xs' =>
        simp only [Option.map_some', Except.map, Option.some.injEq,
          Except.ok.injEq] at h
        subst h
        have hpres := modifyChild_slashFree (fun sub => subdirMutGo f sub rest) name
          (fun u v hu hsu => ih u v hu hsu) t.children xs' hm
          (by simpa [DTree.slashFree] using hs)
        simpa [DTree.slashFree, DTree.children] using hpres

/-- Trees built purely from `create_child` calls are slash-free. -/
theorem built_slashFree (t : DTree) (h : Built t) : t.slashFree = true := by
  induction h with
  | new => rfl
  | mkdirAt t0 path name t' _ hstep ih =>
    refine subdirMutGo_slashFree _ ?_ path t0 t' hstep ih
    intro u v hu hsu
    cases hmk : u.mkdir name with
    | error e => rw [hmk] at hu; simp [Except.toOption] at hu
    | ok w =>
      rw [hmk] at hu
      simp only [Except.toOption, Option.some.injEq] at hu
      subst hu
      exact mkdir_slashFree u w name hmk hsu

/-- C6: for a tree built purely from `create_child` calls, `paths` returns
exactly one string per leaf node reachable below the enumeration root
(`length = leafCount`), the string for each leaf being its root-to-leaf name
sequence rendered as `/name1/.../nameK/`; splitting every returned string at
the separator recovers exactly that name sequence.  (The unnamed enumeration
root itself contributes no path: `DTree::paths` enumerates the leaves of its
child entries, as C9 shows for the childless tree.) -/
theorem leaf_enumeration (t : DTree) (h : Built t) :
    t.paths.length = t.leafCount ∧
    t.paths = t.leafSeqs.map (fun l => '/' :: renderSeq l) ∧
    t.paths.map components = t.leafSeqs := by
  have hsf : t.slashFree = true := built_slashFree t h
  have hr := dtree_paths_render t
  refine ⟨?_, hr, ?_⟩
  · rw [hr, List.length_map]
    obtain ⟨cs⟩ := t
    simpa [DTree.leafSeqs, DTree.leafCount, DTree.children] using leafSeqsEnts_length cs
  · rw [hr, List.map_map]
    refine (List.map_congr_left ?_).trans (List.map_id _)
    intro l hl
    simp only [Function.comp]
    apply components_render
    intro n hn
    obtain ⟨cs⟩ := t
    exact leafSeqsEnts_slashFree cs (by simpa [DTree.slashFree] using hsf) l
      (by simpa [DTree.leafSeqs, DTree.children] using hl) n hn

/-- Witness for C6 on the tree `a/b` built by two `create_child` steps. -/
theorem leaf_enumeration_witness :
    Built (DTree.mk [DEnt.mk "a".toList (DTree.mk [DEnt.mk "b".toList (DTree.mk [])])]) ∧
    ((DTree.mk [DEnt.mk "a".toList (DTree.mk [DEnt.mk "b".toList
        (DTree.mk [])])]).paths.length =
      (DTree.mk [DEnt.mk "a".toList (DTree.mk [DEnt.mk "b".toList
        (DTree.mk [])])]).leafCount ∧
     (DTree.mk [DEnt.mk "a".toList (DTree.mk [DEnt.mk "b".toList (DTree.mk [])])]).paths =
      (DTree.mk [DEnt.mk "a".toList (DTree.mk [DEnt.mk "b".toList
        (DTree.mk [])])]).leafSeqs.map (fun l => '/' :: renderSeq l) ∧
     (DTree.mk [DEnt.mk "a".toList (DTree.mk [DEnt.mk "b".toList
        (DTree.mk [])])]).paths.map components =
      (DTree.mk [DEnt.mk "a".toList (DTree.mk [DEnt.mk "b".toList
        (DTree.mk [])])]).leafSeqs) :=
  have hb : Built (DTree.mk [DEnt.mk "a".toList (DTree.mk [DEnt.mk "b".toList
      (DTree.mk [])])]) :=
    Built.mkdirAt (DTree.mk [DEnt.mk "a".toList (DTree.mk [])]) ["a".toList] "b".toList
      (DTree.mk [DEnt.mk "a".toList (DTree.mk [DEnt.mk "b".toList (DTree.mk [])])])
      (Built.mkdirAt DTree.new [] "a".toList (DTree.mk [DEnt.mk "a".toList (DTree.mk [])])
        Built.new rfl) rfl
  ⟨hb, leaf_enumeration
    (DTree.mk [DEnt.mk "a".toList (DTree.mk [DEnt.mk "b".toList (DTree.mk [])])]) hb⟩

/-! ## C8 / C10 — the cwd-validity invariant -/

/-- Traversal splits over list append: resolve the first part, then the
second from there. -/
theorem subdirGo_append (a : List Str) : ∀ (t : DTree) (b : List Str),
    subdirGo t (a ++ b) =
      match subdirGo t a with
      | .ok d => subdirGo d b
      | .error e => .error e := by
  induction a with
  | nil => intro t b; simp [subdirGo]
  | cons name rest ih =>
    intro t b
    rw [List.cons_append]
    cases hf : t.children.find? (fun x => x.name == name) with
    | some x =>
      simp only [subdirGo, hf]
      exact ih x.subdir b
    | none => simp only [subdirGo, hf]

/-- A successful `mkdir` only appends a child, so every path that resolved
before still resolves. -/
theorem mkdir_resolve_mono (t t' : DTree) (name : Str) (h : t.mkdir name = .ok t') :
    ∀ q, exceptIsOk (subdirGo t q) = true → exceptIsOk (subdirGo t' q) = true := by
  obtain ⟨cs⟩ := t
  rw [DTree.mkdir] at h
  split at h
  · exact absurd h (by simp)
  · split at h
    · exact absurd h (by simp)
    · cases h
      intro q hq
      cases q with
      | nil => simp [subdirGo, exceptIsOk]
      | cons m restq =>
        simp only [subdirGo, DTree.children] at hq ⊢
        cases hf : List.find? (fun x => x.name == m) cs with
        | none => simp only [hf] at hq; simp [exceptIsOk] at hq
        | some x =>
          simp only [hf] at hq
          simp only [List.find?_append, hf]
          exact hq

/-- The rebuild step `modifyChild` keeps every sibling and keeps the rewritten child's name;
lookups that succeeded before still succeed, landing on a subtree related by
the continuation's guarantee. -/
theorem modifyChild_find_mono (k : DTree → Option (Except DirError DTree)) (name : Str)
    (hk : ∀ u v, k u = some (.ok v) →
      ∀ q, exceptIsOk (subdirGo u q) = true → exceptIsOk (subdirGo v q) = true) :
    ∀ xs xs', modifyChild k name xs = some (.ok xs') →
      ∀ (m : Str) (e : DEnt), xs.find? (fun x => x.name == m) = some e →
        ∃ e', xs'.find? (fun x => x.name == m) = some e' ∧
          ∀ q, exceptIsOk (subdirGo e.subdir q) = true →
            exceptIsOk (subdirGo e'.subdir q) = true := by
  intro xs
  induction xs with
  | nil =>
    intro xs' h
    rw [modifyChild] at h
    simp at h
  | cons x xsr ih =>
    intro xs' h m e he
    rw [modifyChild] at h
    split at h
    · cases hk0 : k x.subdir with
      | none => rw [hk0] at h; simp at h
      | some r =>
        rw [hk0] at h
        cases r with
        | error er => simp [Except.map] at h
        | ok t2 =>
          simp only [Option.map_some', Except.map, Option.some.injEq,
            Except.ok.injEq] at h
          subst h
          by_cases hm : (x.name == m) = true
          · rw [@List.find?_cons_of_pos DEnt (fun y => y.name == m) x xsr hm] at he
            simp only [Option.some.injEq] at he
            subst he
            exact ⟨DEnt.mk x.name t2,
              @List.find?_cons_of_pos DEnt (fun y => y.name == m)
                (DEnt.mk x.name t2) xsr (by simpa [DEnt.name] using hm),
              fun q hq => hk x.subdir t2 hk0 q hq⟩
          · rw [@List.find?_cons_of_neg DEnt (fun y => y.name == m) x xsr hm] at he
            refine ⟨e, ?_, fun q hq => hq⟩
            rw [@List.find?_cons_of_neg DEnt (fun y => y.name == m)
              (DEnt.mk x.name t2) xsr (by simpa [DEnt.name] using hm)]
            exact he
    · cases hm0 : modifyChild k name xsr with
      | none => rw [hm0] at h; simp at h
      | some r =>
        rw [hm0] at h
        cases r with
        | error er => simp [Except.map] at h
        | ok l2 =>
          simp only [Option.map_some', Except.map, Option.some.injEq,
            Except.ok.injEq] at h
          subst h
          by_cases hm : (x.name == m) = true
          · rw [@List.find?_cons_of_pos DEnt (fun y => y.name == m) x xsr hm] at he
            simp only [Option.some.injEq] at he
            subst he
            exact ⟨x, @List.find?_cons_of_pos DEnt (fun y => y.name == m) x l2 hm,
              fun q hq => hq⟩
          · rw [@List.find?_cons_of_neg DEnt (fun y => y.name == m) x xsr hm] at he
            obtain ⟨e', he', hmono⟩ := ih l2 hm0 m e he
            refine ⟨e', ?_, hmono⟩
            rw [@List.find?_cons_of_neg DEnt (fun y => y.name == m) x l2 hm]
            exact he'

/-- The mutable traversal preserves resolvability of every path, as long as
the closure it applies does. -/
theorem subdirMutGo_resolve_mono (f : DTree → Option DTree)
    (hf : ∀ u v, f u = some v →
      ∀ q, exceptIsOk (subdirGo u q) = true → exceptIsOk (subdirGo v q) = true) :
    ∀ (p : List Str) (t t' : DTree), subdirMutGo f t p = some (.ok t') →
      ∀ q, exceptIsOk (subdirGo t q) = true → exceptIsOk (subdirGo t' q) = true := by
  intro p
  induction p with
  | nil =>
    intro t t' h q hq
    rw [subdirMutGo] at h
    cases hf0 : f t with
    | none => rw [hf0] at h; simp at h
    | some u =>
      rw [hf0] at h
      simp only [Option.map_some', Option.some.injEq, Except.ok.injEq] at h
      subst h
      exact hf t u hf0 q hq
  | cons name rest ih =>
    intro t t' h q hq
    rw [subdirMutGo] at h
    cases hm : modifyChild (fun sub => subdirMutGo f sub rest) name t.children with
    | none => rw [hm] at h; simp at h
    | some r =>
      rw [hm] at h
      cases r with
      | error er => simp [Except.map] at h
      | ok xs' =>
        simp only [Option.map_some', Except.map, Option.some.injEq,
          Except.ok.injEq] at h
        subst h
        cases q with
        | nil => simp [subdirGo, exceptIsOk]
        | cons m restq =>
          simp only [subdirGo] at hq ⊢
          cases hfind : t.children.find? (fun x => x.name == m) with
          | none => simp only [hfind] at hq; simp [exceptIsOk] at hq
          | some e =>
            simp only [hfind] at hq
            obtain ⟨e', he', hmono⟩ := modifyChild_find_mono
              (fun sub => subdirMutGo f sub rest) name
              (fun u v hu => ih u v hu) t.children xs' hm m e hfind
            simp only [DTree.children, he']
            exact hmono restq hq

/-- Every state reachable through the public operations has a resolvable
working directory. -/
theorem cwd_valid_of_reachable (s : OsState) (h : Reachable s) : s.cwdValid = true := by
  induction h with
  | new => rfl
  | mkdirStep s0 name s' r _ hstep ih =>
    rw [OsState.cwdValid, DTree.subdir, List.reverse_reverse] at ih ⊢
    rw [OsState.mkdir] at hstep
    split at hstep
    · simp only [Option.some.injEq, Prod.mk.injEq] at hstep
      obtain ⟨h1, h2⟩ := hstep
      subst h1
      exact ih
    · split at hstep
      next hcwd =>
        have hc0 : s0.cwd = [] := by simpa [List.isEmpty_iff] using hcwd
        cases hmk : s0.dtree.mkdir name with
        | ok t =>
          rw [hmk] at hstep
          simp only [Option.some.injEq, Prod.mk.injEq] at hstep
          obtain ⟨h1, h2⟩ := hstep
          subst h1
          simp [hc0, subdirGo, exceptIsOk]
        | error e =>
          rw [hmk] at hstep
          simp only [Option.some.injEq, Prod.mk.injEq] at hstep
          obtain ⟨h1, h2⟩ := hstep
          subst h1
          exact ih
      · cases hsm : s0.dtree.subdir_mut s0.cwd.reverse
          (fun dtree => (dtree.mkdir name).toOption) with
        | none => rw [hsm] at hstep; simp at hstep
        | some r2 =>
          rw [hsm] at hstep
          cases r2 with
          | error e =>
            simp only [Option.some.injEq, Prod.mk.injEq] at hstep
            obtain ⟨h1, h2⟩ := hstep
            subst h1
            exact ih
          | ok t =>
            simp only [Option.some.injEq, Prod.mk.injEq] at hstep
            obtain ⟨h1, h2⟩ := hstep
            subst h1
            rw [DTree.subdir_mut, List.reverse_reverse] at hsm
            refine subdirMutGo_resolve_mono _ ?_ s0.cwd s0.dtree t hsm s0.cwd ih
            intro u v hu hq
            cases humk : u.mkdir name with
            | error e => rw [humk] at hu; simp [Except.toOption] at hu
            | ok w =>
              rw [humk] at hu
              simp only [Except.toOption, Option.some.injEq] at hu
              subst hu
              exact mkdir_resolve_mono u w name humk hq
  | chdirStep s0 path s' r _ hstep ih =>
    rw [OsState.cwdValid, DTree.subdir, List.reverse_reverse] at ih ⊢
    rw [OsState.chdir] at hstep
    split at hstep
    · simp only [Option.some.injEq, Prod.mk.injEq] at hstep
      obtain ⟨h1, h2⟩ := hstep
      subst h1
      simp [subdirGo, exceptIsOk]
    next hne =>
      have hp : path ≠ [] := by simpa [List.isEmpty_iff] using hne
      cases hout : s0.dtree.subdir s0.cwd.reverse with
      | error e => rw [hout] at hstep; simp at hstep
      | ok dir =>
        rw [hout] at hstep
        cases hin : dir.with_subdir path with
        | ok v =>
          simp only [hin, Option.some.injEq, Prod.mk.injEq] at hstep
          obtain ⟨h1, h2⟩ := hstep
          subst h1
          rw [DTree.subdir, List.reverse_reverse] at hout
          have h2' : subdirGo dir path = .ok v := by
            rw [← DTree.with_subdir_ne_nil dir path hp]
            exact hin
          simp [subdirGo_append, hout, h2', exceptIsOk]
        | error e =>
          simp only [hin, Option.some.injEq, Prod.mk.injEq] at hstep
          obtain ⟨h1, h2⟩ := hstep
          subst h1
          exact ih

/-- C8: in every session reachable from the initial state through the public
operations, the stored `cwd` — resolved exactly as `chdir` and `paths`
resolve it — denotes a node that exists in the root tree; in particular this
holds whenever `cwd` is non-empty.  Every operation preserves the
invariant. -/
theorem reachable_cwd_resolves (s : OsState) (h : Reachable s) :
    s.cwd ≠ [] → ∃ d, s.dtree.subdir s.cwd.reverse = .ok d := by
  intro _
  have hv := cwd_valid_of_reachable s h
  rw [OsState.cwdValid] at hv
  cases hres : s.dtree.subdir s.cwd.reverse with
  | ok d => exact ⟨d, rfl⟩
  | error e => rw [hres] at hv; simp [exceptIsOk] at hv

/-- Witness for C8: the reachable session `mkdir "a"; chdir ["a"]`, whose
`cwd` is the non-empty `["a"]`. -/
theorem reachable_cwd_resolves_witness :
    Reachable (OsState.mk (DTree.mk [DEnt.mk "a".toList (DTree.mk [])]) ["a".toList]) ∧
    (OsState.mk (DTree.mk [DEnt.mk "a".toList (DTree.mk [])]) ["a".toList]).cwd ≠ [] ∧
    ∃ d, (OsState.mk (DTree.mk [DEnt.mk "a".toList (DTree.mk [])])
      ["a".toList]).dtree.subdir
        (OsState.mk (DTree.mk [DEnt.mk "a".toList (DTree.mk [])]) ["a".toList]).cwd.reverse =
      .ok d :=
  have hre : Reachable (OsState.mk (DTree.mk [DEnt.mk "a".toList (DTree.mk [])])
      ["a".toList]) :=
    Reachable.chdirStep (OsState.mk (DTree.mk [DEnt.mk "a".toList (DTree.mk [])]) [])
      ["a".toList]
      (OsState.mk (DTree.mk [DEnt.mk "a".toList (DTree.mk [])]) ["a".toList]) (.ok ())
      (Reachable.mkdirStep OsState.new "a".toList
        (OsState.mk (DTree.mk [DEnt.mk "a".toList (DTree.mk [])]) []) (.ok ())
        Reachable.new rfl) rfl
  ⟨hre, by decide,
   reachable_cwd_resolves (OsState.mk (DTree.mk [DEnt.mk "a".toList (DTree.mk [])])
     ["a".toList]) hre (by decide)⟩

/-- C10: in every reachable session, `chdir` with a non-empty path never hits
the panic branch of the inner `unwrap`: the resolution of the stored `cwd`
always succeeds, so the call returns an explicit result (`none` in the
embedding is the panic). -/
theorem chdir_never_panics (s : OsState) (path : List Str) (h : Reachable s)
    (hp : path ≠ []) : s.chdir path ≠ none := by
  have hv := cwd_valid_of_reachable s h
  rw [OsState.cwdValid] at hv
  rw [OsState.chdir, if_neg (by simpa [List.isEmpty_iff] using hp)]
  cases hout : s.dtree.subdir s.cwd.reverse with
  | error e => rw [hout] at hv; simp [exceptIsOk] at hv
  | ok dir =>
    cases hin : dir.with_subdir path with
    | ok v => simp [hin]
    | error e => simp [hin]

/-- Witness for C10: the fresh session and the missing path `["q"]`. -/
theorem chdir_never_panics_witness :
    Reachable OsState.new ∧ (["q".toList] : List Str) ≠ [] ∧
    OsState.new.chdir ["q".toList] ≠ none :=
  ⟨Reachable.new, by decide,
   chdir_never_panics OsState.new ["q".toList] Reachable.new (by decide)⟩
